import Mathlib

/-!
Shallow embedding of cora/core/skysim.py (repository jrs65/simulations_21cm).

The source file defines four functions: clarray (spectral integrator),
mkfullsky (realization synthesizer), mkfullsky_der1 (derivative variant)
and mkconstrained (constrained projector).  Numpy float arrays are
embedded as lists of lists of rationals, complex128 arrays as lists of
lists of rational pairs, and fallible numpy operations return
Except String.  External collaborators (scipy.linalg eigendecomposition
and solve, nputil.matrix_root_manynull, nputil.complex_std_normal,
healpy transforms) are not part of the source file; they enter as
function parameters or are modelled from the spec where noted.
-/

namespace Skysim

/-- A complex number with rational parts, modelling the values of the
numpy complex128 arrays used for harmonic coefficients. -/
structure Cplx where
  re : ℚ
  im : ℚ
deriving DecidableEq

/-- Complex zero, the fill value of np.zeros complex arrays. -/
def zeroC : Cplx := ⟨0, 0⟩

/-- Complex addition. -/
def addC (a b : Cplx) : Cplx := ⟨a.re + b.re, a.im + b.im⟩

/-- Scaling a complex value by a real (rational) scalar. -/
def smulC (q : ℚ) (z : Cplx) : Cplx := ⟨q * z.re, q * z.im⟩

/-- Real matrices (numpy 2-D float arrays) as lists of rows. -/
abbrev Mat := List (List ℚ)

/-- Complex matrices (numpy 2-D complex arrays) as lists of rows. -/
abbrev CMat := List (List Cplx)

/-- A covariance tensor C_l(z, z'): list over multipole l of matrices. -/
abbrev Tensor := List Mat

/-- Entry (i, j) of a real matrix, out-of-range reads defaulting to 0
(the embedding only evaluates in-range positions of rectangular data). -/
def matGet (A : Mat) (i j : ℕ) : ℚ := (A.getD i []).getD j 0

/-- Number of rows: numpy shape[0]. -/
def rowsOf (A : Mat) : ℕ := A.length

/-- Number of columns of a rectangular matrix: numpy shape[1]. -/
def colsOf (A : Mat) : ℕ := (A.getD 0 []).length

/-- Number of columns of a rectangular complex matrix. -/
def colsOfC (B : CMat) : ℕ := (B.getD 0 []).length

/-- np.identity(n). -/
def npIdentity (n : ℕ) : Mat :=
  (List.range n).map fun i => (List.range n).map fun j => if i = j then 1 else 0

/-- Scalar multiple of a real matrix (numpy array * scalar). -/
def matScale (c : ℚ) (A : Mat) : Mat := A.map (List.map (fun x => c * x))

/-- numpy ndarray.diagonal() of a 2-D array: length min(rows, cols). -/
def npDiagonal (A : Mat) : List ℚ :=
  (List.range (min (rowsOf A) (colsOf A))).map fun i => matGet A i i

/-- numpy ndarray.max(): raises on an empty array. -/
def npMax (l : List ℚ) : Except String ℚ :=
  match l with
  | [] => .error "zero-size array to reduction operation maximum"
  | x :: xs => .ok (xs.foldl max x)

/-- Total version of the diagonal maximum (the value npMax returns on a
nonempty diagonal; 0 on the empty diagonal, never reached by the claims). -/
def diagMaxD (A : Mat) : ℚ :=
  match npDiagonal A with
  | [] => 0
  | x :: xs => xs.foldl max x

/-- The literal 1e-14 of skysim.py line 130, read as the rational 10^-14. -/
def jitter : ℚ := 1 / 10 ^ 14

/-- numpy broadcasting addition of two 2-D arrays: shapes (p, q) and (r, s)
are compatible iff each axis pair agrees or has a 1; the result has the
elementwise maximum shape, size-1 axes repeating their single entry. -/
def npBroadcastAdd (A B : Mat) : Except String Mat :=
  if (rowsOf A = rowsOf B ∨ rowsOf A = 1 ∨ rowsOf B = 1) ∧
      (colsOf A = colsOf B ∨ colsOf A = 1 ∨ colsOf B = 1) then
    .ok ((List.range (max (rowsOf A) (rowsOf B))).map fun i =>
      (List.range (max (colsOf A) (colsOf B))).map fun j =>
        matGet A (if rowsOf A = 1 then 0 else i) (if colsOf A = 1 then 0 else j) +
        matGet B (if rowsOf B = 1 then 0 else i) (if colsOf B = 1 then 0 else j))
  else .error "operands could not be broadcast together"

/-- Dot product of a real row with a complex column (entries of np.dot of
a real matrix with a complex matrix). -/
def dotRC (row : List ℚ) (col : List Cplx) : Cplx :=
  (List.zipWith smulC row col).foldl addC zeroC

/-- Column j of a complex matrix. -/
def colC (B : CMat) (j : ℕ) : List Cplx := B.map fun r => r.getD j zeroC

/-- np.dot of a real matrix with a complex matrix, with numpy's shape
check (columns of the left factor must equal rows of the right factor). -/
def npDotC (A : Mat) (B : CMat) : Except String CMat :=
  if colsOf A = B.length then
    .ok (A.map fun row => (List.range (colsOfC B)).map fun j => dotRC row (colC B j))
  else .error "shapes not aligned"

/-- numpy slice assignment alm_list[ii][:, 0, l, :(l+1)] = result: the
assigned block must have exactly nrows x ncols entries. -/
def npAssign (nrows ncols : ℕ) (r : Except String CMat) : Except String CMat :=
  match r with
  | .error e => .error e
  | .ok R =>
    if R.length = nrows ∧ colsOfC R = ncols then .ok R
    else .error "could not broadcast input array"

/-- Sequential effectful map over a list, first error wins: the semantics
of a Python for-loop whose body may raise. -/
def mapME {α β : Type} (f : α → Except String β) : List α → Except String (List β)
  | [] => .ok []
  | x :: xs =>
    match f x with
    | .error e => .error e
    | .ok y =>
      match mapME f xs with
      | .error e => .error e
      | .ok ys => .ok (y :: ys)

/-- Body of the inner loop of mkfullsky (skysim.py lines 129-136) for one
multipole l and one covariance matrix Cl: regularize the matrix, factorize
it through the external root (called with truncate := false and
fixed_ev_sign_convention := true, in this argument order), and apply the
transform to the white-noise block gauss of shape (numz, l+1). -/
def mkfullskyStep (root : Mat → Bool → Bool → Mat) (numz l : ℕ)
    (Cl : Mat) (gauss : CMat) : Except String CMat :=
  match npMax (npDiagonal Cl) with
  | .error e => .error e
  | .ok dmax =>
    match npBroadcastAdd Cl (matScale (dmax * jitter) (npIdentity numz)) with
    | .error e => .error e
    | .ok corrm => npAssign numz (l + 1) (npDotC (root corrm false true) gauss)

/-- Body of the inner loop of mkfullsky_der1 (skysim.py lines 207-213).
Identical to the mkfullsky step except for the factorization call of line
212, which omits fixed_ev_sign_convention.  Modelled from the spec: the
external factorizer nputil.matrix_root_manynull is not under src/; the
spec describes its sign convention as an optional behaviour that a caller
requests, so the omitted argument is embedded as the flag value false. -/
def mkfullskyDer1Step (root : Mat → Bool → Bool → Mat) (numz l : ℕ)
    (Cl : Mat) (gauss : CMat) : Except String CMat :=
  match npMax (npDiagonal Cl) with
  | .error e => .error e
  | .ok dmax =>
    match npBroadcastAdd Cl (matScale (dmax * jitter) (npIdentity numz)) with
    | .error e => .error e
    | .ok corrm => npAssign numz (l + 1) (npDotC (root corrm false false) gauss)

/-- The white-noise block used at multipole l (skysim.py lines 124-127):
drawn on the fly when no precomputed list is supplied, else taken from the
supplied list.  The parameter draw models the stream of values produced by
the external nputil.complex_std_normal((numz, l+1)) call for each l. -/
def gaussAt (draw : ℕ → CMat) (gvl : Option (List CMat)) (l : ℕ) : CMat :=
  match gvl with
  | none => draw l
  | some gl => gl.getD l []

/-- Declared coordinate count of a covariance tensor list:
corr[0].shape[1] (skysim.py line 110). -/
def corrNumz (corr : List Tensor) : ℕ := ((corr.getD 0 []).getD 0 []).length

/-- Third-axis size of the first tensor: corr[0].shape[2] (line 113). -/
def corrShape2 (corr : List Tensor) : ℕ :=
  (((corr.getD 0 []).getD 0 []).getD 0 []).length

/-- Maximum multipole: corr[0].shape[0] - 1 (line 111). -/
def corrMaxl (corr : List Tensor) : ℕ := (corr.getD 0 []).length - 1

/-- The harmonic-coefficient stage of mkfullsky (skysim.py lines 106-136):
shape check on the first tensor, then for each multipole l a single
white-noise block shared by every tensor of the list, factorize-and-apply
per tensor.  The result holds, for each input tensor in order, the list
over l of assigned coefficient blocks (the written entries of the
zero-initialized alm arrays). -/
def mkfullskyAlms (root : Mat → Bool → Bool → Mat) (draw : ℕ → CMat)
    (gvl : Option (List CMat)) (corr : List Tensor) :
    Except String (List (List CMat)) :=
  if corr = [] then .error "list index out of range" else
  if corrShape2 corr ≠ corrNumz corr then
    .error "Correlation matrix is incorrect shape." else
  match mapME (fun l =>
      mapME (fun C =>
        mkfullskyStep root (corrNumz corr) l (C.getD l []) (gaussAt draw gvl l)) corr)
      (List.range (corrMaxl corr + 1)) with
  | .error e => .error e
  | .ok table =>
    .ok ((List.range corr.length).map fun ii => table.map fun row => row.getD ii [])

/-- Full mkfullsky (skysim.py lines 78-153): a bare tensor input is
wrapped into a singleton list; the per-tensor result is the coefficient
array itself when alms is requested, else the pixel-map stack produced by
the external synthesis transform sph; a result list of length 1 is
returned bare (ncorr == 1 branch), otherwise as the list. -/
def mkfullsky {Pix : Type} (root : Mat → Bool → Bool → Mat) (draw : ℕ → CMat)
    (gvl : Option (List CMat)) (sph : List CMat → Pix) (alms : Bool)
    (corrInput : Tensor ⊕ List Tensor) :
    Except String ((List CMat ⊕ Pix) ⊕ List (List CMat ⊕ Pix)) :=
  let corr : List Tensor :=
    match corrInput with
    | .inl t => [t]
    | .inr ts => ts
  match mkfullskyAlms root draw gvl corr with
  | .error e => .error e
  | .ok almList =>
    let res : List (List CMat ⊕ Pix) :=
      if alms then almList.map Sum.inl else almList.map fun a => Sum.inr (sph a)
    if corr.length = 1 then .ok (.inl (res.getD 0 (.inl [])))
    else .ok (.inr res)

/-- The harmonic-coefficient stage of mkfullsky_der1 (skysim.py lines
185-213), identical to the mkfullsky stage except for the factorization
call embedded in mkfullskyDer1Step. -/
def mkfullskyDer1Alms (root : Mat → Bool → Bool → Mat) (draw : ℕ → CMat)
    (gvl : Option (List CMat)) (corr : List Tensor) :
    Except String (List (List CMat)) :=
  if corr = [] then .error "list index out of range" else
  if corrShape2 corr ≠ corrNumz corr then
    .error "Correlation matrix is incorrect shape." else
  match mapME (fun l =>
      mapME (fun C =>
        mkfullskyDer1Step root (corrNumz corr) l (C.getD l []) (gaussAt draw gvl l)) corr)
      (List.range (corrMaxl corr + 1)) with
  | .error e => .error e
  | .ok table =>
    .ok ((List.range corr.length).map fun ii => table.map fun row => row.getD ii [])

/-- The regularized matrix as the spec words it: C[l] plus a diagonal
regularizer 1e-14 times the maximum of C[l]'s diagonal, written entrywise
over the declared numz x numz coordinate grid. -/
def specRegularized (numz : ℕ) (M : Mat) : Mat :=
  (List.range numz).map fun i => (List.range numz).map fun j =>
    matGet M i j + (if i = j then jitter * diagMaxD M else 0)

/-- Squareness of a list matrix at size n: n rows, each of length n. -/
def matIsSquare (n : ℕ) (M : Mat) : Prop :=
  M.length = n ∧ ∀ row ∈ M, row.length = n

/-- np.linspace(a, b, n): n evenly spaced points with both endpoints. -/
def linspace (a b : ℚ) (n : ℕ) : List ℚ :=
  (List.range n).map fun k => a + (b - a) * k / ((n : ℚ) - 1)

/-- np.array_split(xs, k) for k >= 1: k contiguous sections, the first
(length mod k) of size ceil(length/k) and the rest of size floor. -/
def arraySplit {α : Type} (xs : List α) (k : ℕ) : List (List α) :=
  let n := xs.length
  let q := n / k
  let r := n % k
  (List.range k).map fun i =>
    (xs.drop (i * q + min i r)).take (if i < r then q + 1 else q)

/-- Sum of a list of field values. -/
def sumB {β : Type} [Field β] (l : List β) : β := l.foldl (· + ·) 0

/-- Modelled from the spec: scipy.integrate.romb's level-j trapezoid rule
over 2^k+1 uniformly spaced samples (step dx), using every 2^(k-j)-th
sample.  scipy is an excluded external collaborator; the spec glossary
describes Romberg integration as iterative refinement quadrature from
uniformly spaced samples. -/
def trapLevel {β : Type} [Field β] (y : List β) (dx : ℚ) (k j : ℕ) : β :=
  let stride := 2 ^ (k - j)
  let h : ℚ := dx * (2 : ℚ) ^ (k - j)
  ((h : ℚ) : β) * ((y.getD 0 0 + y.getD (2 ^ k) 0) / 2 +
    sumB ((List.range (2 ^ j - 1)).map fun m => y.getD ((m + 1) * stride) 0))

/-- Modelled from the spec: one Richardson extrapolation row of the
Romberg tableau, built from the previous row and the next trapezoid
value. -/
def richRow {β : Type} [Field β] (prev : List β) (t : β) : List β :=
  let fin := prev.foldl
    (fun (st : ℕ × β × List β) p =>
      (st.1 + 1, st.2.1 + (st.2.1 - p) / (((4 : ℚ) ^ st.1 - 1 : ℚ) : β),
        st.2.2 ++ [st.2.1]))
    (1, t, [])
  fin.2.2 ++ [fin.2.1]

/-- Modelled from the spec: scipy.integrate.romb over 2^k+1 samples with
spacing dx — the corner value of the Romberg tableau. -/
def rombSamples {β : Type} [Field β] (y : List β) (dx : ℚ) (k : ℕ) : β :=
  let finalRow := (List.range k).foldl
    (fun row j => richRow row (trapLevel y dx k (j + 1))) [trapLevel y dx k 0]
  finalRow.getLastD 0

/-- The zhalf computation of clarray (skysim.py line 48): half the supplied
channel width, or half the separation of the first two sorted coordinate
values; sorting a list of fewer than 2 entries makes the zsort[1] access
raise. -/
def zhalfE (zarray : List ℚ) (zwidth : Option ℚ) : Except String ℚ :=
  match zwidth with
  | some w => .ok (w / 2)
  | none =>
    let zsort := List.insertionSort (fun a b => a ≤ b) zarray
    if 2 ≤ zsort.length then .ok (|zsort.getD 1 0 - zsort.getD 0 0| / 2)
    else .error "index 1 is out of bounds for axis 0"

/-- The integration body of clarray (skysim.py lines 49-75): quadrature
sub-points per coordinate bin, per-multipole evaluation of aps on the
sub-point grid in the sections produced by np.array_split, nested Romberg
integration over both sub-point axes, and normalisation by (2*zhalf)^2. -/
def clarrayBody {β : Type} [Field β] (aps : ℕ → ℚ → ℚ → β) (lmax : ℕ)
    (zarray : List ℚ) (zromb : ℕ) (zhalf : ℚ) : List (List (List β)) :=
  let zlen := zarray.length
  let zint := 2 ^ zromb + 1
  let zspace := 2 * zhalf / 2 ^ zromb
  let za := (zarray.map fun z =>
    (linspace (-zhalf) zhalf zint).map fun off => z + off).flatten
  let lsections := arraySplit (List.range (lmax + 1)) (lmax / 5)
  (lsections.map fun sec => sec.map fun l =>
    (List.range zlen).map fun i => (List.range zlen).map fun j =>
      rombSamples ((List.range zint).map fun p =>
        rombSamples ((List.range zint).map fun q =>
          aps l (za.getD (i * zint + p) 0) (za.getD (j * zint + q) 0))
          zspace zromb) zspace zromb
        / (((2 * zhalf) ^ 2 : ℚ) : β)).flatten

/-- clarray (skysim.py lines 16-75): with zromb = 0, the direct pointwise
broadcast evaluation of aps over multipoles and the coordinate grid;
otherwise bin-width inference (fallible), the np.array_split of the
multipole range into lmax // 5 sections (which raises when the section
count is zero), and the integration body. -/
def clarray {β : Type} [Field β] (aps : ℕ → ℚ → ℚ → β) (lmax : ℕ)
    (zarray : List ℚ) (zromb : ℕ) (zwidth : Option ℚ) :
    Except String (List (List (List β))) :=
  if zromb = 0 then
    .ok ((List.range (lmax + 1)).map fun l =>
      zarray.map fun z1 => zarray.map fun z2 => aps l z1 z2)
  else
    match zhalfE zarray zwidth with
    | .error e => .error e
    | .ok zhalf =>
      if lmax / 5 = 0 then .error "number sections must be larger than 0."
      else .ok (clarrayBody aps lmax zarray zromb zhalf)

/-- The spec-side reading of the zromb = 0 contract: the covariance tensor
whose (l, i, j) entry is aps evaluated at multipole l and the i-th and
j-th coordinate values, with no integration or smoothing. -/
def directEval {β : Type} (aps : ℕ → ℚ → ℚ → β) (lmax : ℕ)
    (zarray : List ℚ) : List (List (List β)) :=
  (List.range (lmax + 1)).map fun l =>
    zarray.map fun z1 => zarray.map fun z2 => aps l z1 z2

/-- Whether an Except value is the error case. -/
def isErr {α : Type} (e : Except String α) : Bool :=
  match e with
  | .error _ => true
  | .ok _ => false

/-- Transpose of a rectangular list matrix (numpy .T). -/
def matTranspose (A : Mat) : Mat :=
  (List.range (colsOf A)).map fun j => A.map fun row => row.getD j 0

/-- Column j of a real matrix, as a list over rows. -/
def matColumn (A : Mat) (j : ℕ) : List ℚ := A.map fun row => row.getD j 0

/-- A real matrix applied to a complex vector (np.dot of a matrix and a
1-D complex array). -/
def matVecC (A : Mat) (v : List Cplx) : List Cplx := A.map fun row => dotRC row v

/-- trans[l] of mkconstrained (skysim.py line 292): the transpose of the
last nmodes columns of the eigenvector matrix of the multipole's
covariance matrix.  The external scipy.linalg.eigh is a parameter eigh
returning the eigenvector matrix, columns in ascending eigenvalue order
(the scipy convention). -/
def transMk (eigh : Mat → Mat) (nmodes : ℕ) (corr : Tensor) (l : ℕ) : Mat :=
  matTranspose ((eigh (corr.getD l [])).map fun row =>
    row.drop (row.length - nmodes))

/-- Restriction of a matrix to a given list of columns (numpy fancy
indexing A[:, cols]). -/
def colsAt (cols : List ℕ) (A : Mat) : Mat :=
  A.map fun row => cols.map fun j => row.getD j 0

/-- tmat[l] of mkconstrained (skysim.py line 293): trans[l] restricted to
the constrained coordinate columns f_ind. -/
def tmatMk (eigh : Mat → Mat) (nmodes : ℕ) (f_ind : List ℕ) (corr : Tensor)
    (l : ℕ) : Mat :=
  colsAt f_ind (transMk eigh nmodes corr l)

/-- cmap[i] of mkconstrained (skysim.py lines 296-297): the vector over
constraints of the harmonic coefficient at coefficient index i of each
analyzed constraint map.  The external healpy.map2alm is the parameter
map2alm. -/
def cmapMk {Pix : Type} (map2alm : Pix → List Cplx)
    (constraints : List (ℕ × Pix)) (i : ℕ) : List Cplx :=
  constraints.map fun c => (map2alm c.2).getD i zeroC

/-- The cv array of mkconstrained (skysim.py lines 301-305), indexed
[coefficient index][coordinate slice]: zero for the monopole, otherwise
trans[l]^T applied to the amplitudes returned by the external solver on
the system (tmat[l]^T, cmap[i]). -/
def cvMk {Pix : Type} (eigh : Mat → Mat)
    (solveLin : Mat → List Cplx → List Cplx) (map2alm : Pix → List Cplx)
    (corr : Tensor) (constraints : List (ℕ × Pix)) (larr : List ℕ)
    (numz : ℕ) : List (List Cplx) :=
  let nmodes := constraints.length
  let f_ind := constraints.map Prod.fst
  larr.enum.map fun il =>
    if il.2 = 0 then List.replicate numz zeroC
    else
      matVecC (matTranspose (transMk eigh nmodes corr il.2))
        (solveLin (matTranspose (tmatMk eigh nmodes f_ind corr il.2))
          (cmapMk map2alm constraints il.1))

/-- Entry of the cv array at coordinate slice z and coefficient index i. -/
def cvEntry {Pix : Type} (eigh : Mat → Mat)
    (solveLin : Mat → List Cplx → List Cplx) (map2alm : Pix → List Cplx)
    (corr : Tensor) (constraints : List (ℕ × Pix)) (larr : List ℕ)
    (numz z i : ℕ) : Cplx :=
  ((cvMk eigh solveLin map2alm corr constraints larr numz).getD i []).getD z zeroC

/-- Full mkconstrained (skysim.py lines 250-312): shape check, then the
pixel-map stack obtained by handing each coordinate slice's accumulated
coefficient vector to the external synthesis transform alm2map. -/
def mkconstrained {Pix Pm : Type} (eigh : Mat → Mat)
    (solveLin : Mat → List Cplx → List Cplx) (map2alm : Pix → List Cplx)
    (alm2map : List Cplx → Pm) (larr : List ℕ) (corr : Tensor)
    (constraints : List (ℕ × Pix)) : Except String (List Pm) :=
  let numz := (corr.getD 0 []).length
  if ((corr.getD 0 []).getD 0 []).length ≠ numz then
    .error "Correlation matrix is incorrect shape."
  else
    .ok ((List.range numz).map fun z =>
      alm2map ((cvMk eigh solveLin map2alm corr constraints larr numz).map
        fun percoeff => percoeff.getD z zeroC))

/-- The spec-side reading of the trans[l] construction: the j-th row of
the coordinate-by-mode projection is the eigenvector associated with the
j-th of the nmodes largest eigenvalues, i.e. column numz - nmodes + j of
the eigenvector matrix under the ascending-order convention. -/
def transSpecMk (eigh : Mat → Mat) (nmodes numz : ℕ) (corr : Tensor)
    (l : ℕ) : Mat :=
  (List.range nmodes).map fun j => matColumn (eigh (corr.getD l [])) (numz - nmodes + j)

/-- Modelled from the spec: a deterministic, shape-preserving stand-in for
the external factorization (nputil.matrix_root_manynull is not under
src/).  Per the spec the non-truncating factorization keeps the
coordinate dimension; its numerical content is never used by the
call-structure and shape properties evaluated on concrete inputs. -/
def rootId : Mat → Bool → Bool → Mat := fun M _ _ => M

/-- A factorization stand-in that records the sign-convention flag in the
shape of its output: the matrix is returned unchanged when the
deterministic sign convention is requested and as the empty matrix when it
is not, so the downstream shape checks expose which call sites request the
convention. -/
def rootFlag : Mat → Bool → Bool → Mat := fun M _ fs => if fs then M else []

/-- The trivial synthesis transform used to instantiate the pixelization
stage in concrete evaluations. -/
def sphUnit : List CMat → Unit := fun _ => ()

/-- The element of a list-shaped mkfullsky result at a given position:
the list entry when the run returned a list, else a fixed default. -/
def listOutAt {Pix : Type} (k : ℕ)
    (e : Except String ((List CMat ⊕ Pix) ⊕ List (List CMat ⊕ Pix))) :
    List CMat ⊕ Pix :=
  match e with
  | .ok (.inr rs) => rs.getD k (.inl [])
  | _ => .inl []

/-- The shape of a mkfullsky result: none when the run failed, some none
for a bare (non-list) result, some (some n) for a list result of
length n. -/
def outShape {Pix : Type}
    (e : Except String ((List CMat ⊕ Pix) ⊕ List (List CMat ⊕ Pix))) :
    Option (Option ℕ) :=
  match e with
  | .error _ => none
  | .ok (.inl _) => some none
  | .ok (.inr rs) => some (some rs.length)

/-- A concrete white-noise stream for coordinate count 1: each multipole
draws the (1, l+1)-block filled by the single unit value actually read. -/
def drawOne : ℕ → CMat := fun _ => [[⟨1, 0⟩]]

/-- A concrete white-noise stream for coordinate count 2. -/
def drawTwo : ℕ → CMat := fun _ => [[⟨1, 0⟩], [⟨1, 0⟩]]

/-- The constantly-zero angular power spectrum over rationals. -/
def apsQZero : ℕ → ℚ → ℚ → ℚ := fun _ _ _ => 0

/-- A concrete covariance tensor with lmax = 0 and one coordinate slice. -/
def tensOne : Tensor := [[[1]]]

/-- A concrete covariance tensor with lmax = 0 and two coordinate slices. -/
def tensTwo : Tensor := [[[1, 0], [0, 1]]]

/-- A concrete mis-shaped covariance tensor: second axis 3, third axis 2. -/
def tensBad : Tensor := [[[1, 2], [3, 4], [5, 6]]]

/-- A concrete eigendecomposition stand-in for 1-by-1 matrices used in
witness evaluations: the eigenvector matrix of a 1-by-1 covariance matrix
is the 1-by-1 identity, which the stand-in returns for the inputs it is
evaluated at. -/
def eighOne : Mat → Mat := fun _ => [[1]]

/-- A concrete solver stand-in: for the 1-by-1 identity systems arising in
witness evaluations the right-hand side is itself the exact solution. -/
def solveOne : Mat → List Cplx → List Cplx := fun _ b => b

/-- A concrete harmonic analysis stand-in over a trivial pixel type,
returning a fixed coefficient vector. -/
def m2aConst : Unit → List Cplx := fun _ => [⟨1, 0⟩, ⟨2, 0⟩, ⟨3, 0⟩]

/-- Reading a mapped range list at an in-range position. -/
theorem getD_range_map {α : Type} (f : ℕ → α) {n i : ℕ} (d : α) (h : i < n) :
    ((List.range n).map f).getD i d = f i := by
  simp [List.getD_eq_getElem?_getD, List.getElem?_map, List.getElem?_range h]

/-- Reading a mapped list at an in-range position. -/
theorem getD_map_of_lt {α β : Type} (f : α → β) (l : List α) {i : ℕ} (d : β)
    (d' : α) (h : i < l.length) : (l.map f).getD i d = f (l.getD i d') := by
  have h2 : i < (l.map f).length := by simpa using h
  rw [List.getD_eq_getElem?_getD, List.getElem?_eq_getElem h2,
    List.getD_eq_getElem?_getD, List.getElem?_eq_getElem h]
  simp

/-- Reading a dropped list at an in-range position. -/
theorem getD_drop {α : Type} (l : List α) (n i : ℕ) (d : α) :
    (l.drop n).getD i d = l.getD (n + i) d := by
  simp [List.getD_eq_getElem?_getD, List.getElem?_drop]

/-- Reading an enumerated list at an in-range position. -/
theorem getD_enum {α : Type} (l : List α) {i : ℕ} (p : ℕ × α) (d : α)
    (h : i < l.length) : l.enum.getD i p = (i, l.getD i d) := by
  rw [List.getD_eq_getElem?_getD, List.getElem?_enum,
    List.getElem?_eq_getElem h, List.getD_eq_getElem?_getD,
    List.getElem?_eq_getElem h]
  simp

/-- Reading a replicated list at an in-range position. -/
theorem getD_replicate {α : Type} {a d : α} {n i : ℕ} (h : i < n) :
    (List.replicate n a).getD i d = a := by
  simp [List.getD_eq_getElem?_getD, List.getElem?_replicate, h]

/-- A successful sequential map produces one output per input, each the
successful value of the body at that input. -/
theorem mapME_ok_getD {α β : Type} {f : α → Except String β} :
    ∀ {xs : List α} {ys : List β}, mapME f xs = .ok ys →
      ∀ {i : ℕ}, i < xs.length → ∀ (d : α) (d' : β),
        f (xs.getD i d) = .ok (ys.getD i d') := by
  intro xs
  induction xs with
  | nil =>
    intro ys h i hi d d'
    exact absurd hi (by simp)
  | cons x xs ih =>
    intro ys h i hi d d'
    simp only [mapME] at h
    cases hfx : f x with
    | error e => rw [hfx] at h; exact absurd h (by simp)
    | ok y =>
      rw [hfx] at h
      cases hrest : mapME f xs with
      | error e => rw [hrest] at h; exact absurd h (by simp)
      | ok ys' =>
        rw [hrest] at h
        simp only [Except.ok.injEq] at h
        subst h
        cases i with
        | zero => simpa [List.getD] using hfx
        | succ n => simpa [List.getD] using ih hrest (by simpa using hi) d d'

/-- A successful sequential map has outputs only for the listed inputs. -/
theorem mapME_ok_mem {α β : Type} {f : α → Except String β} :
    ∀ {xs : List α} {ys : List β}, mapME f xs = .ok ys →
      ∀ y ∈ ys, ∃ x ∈ xs, f x = .ok y := by
  intro xs
  induction xs with
  | nil =>
    intro ys h y hy
    simp only [mapME, Except.ok.injEq] at h
    subst h
    exact absurd hy (by simp)
  | cons x xs ih =>
    intro ys h z hz
    simp only [mapME] at h
    cases hfx : f x with
    | error e => rw [hfx] at h; exact absurd h (by simp)
    | ok y =>
      rw [hfx] at h
      cases hrest : mapME f xs with
      | error e => rw [hrest] at h; exact absurd h (by simp)
      | ok ys' =>
        rw [hrest] at h
        simp only [Except.ok.injEq] at h
        subst h
        rcases List.mem_cons.mp hz with hz | hz
        · exact ⟨x, List.mem_cons_self x xs, hz ▸ hfx⟩
        · obtain ⟨w, hw, hfw⟩ := ih hrest z hz
          exact ⟨w, List.mem_cons_of_mem x hw, hfw⟩

/-- C5: for every aps, lmax and zarray, clarray with zromb = 0 returns
exactly the direct evaluation of aps at the coordinate grid, and in the
spec's concrete scenario (zarray = [0, 1], lmax = 4,
aps(l, z1, z2) = exp(-|z1 - z2|)) every multipole's matrix has entry
(0, 1) equal to exp(-1) and diagonal entries equal to 1. -/
theorem C5_clarray_zromb_zero :
    (∀ (β : Type) [Field β] (aps : ℕ → ℚ → ℚ → β) (lmax : ℕ)
        (zarray : List ℚ) (zwidth : Option ℚ),
      clarray aps lmax zarray 0 zwidth = .ok (directEval aps lmax zarray)) ∧
    (∀ l : ℕ, l < 5 → ∀ T : List (List (List ℝ)),
      clarray (fun _ z1 z2 => Real.exp (-|(z1 : ℝ) - (z2 : ℝ)|)) 4 [0, 1] 0 none
          = .ok T →
        ((T.getD l []).getD 0 []).getD 1 0 = Real.exp (-1) ∧
        ((T.getD l []).getD 0 []).getD 0 0 = 1 ∧
        ((T.getD l []).getD 1 []).getD 1 0 = 1) := by
  constructor
  · intro β _ aps lmax zarray zwidth
    rfl
  · intro l hl T hT
    have h1 : clarray (fun _ z1 z2 => Real.exp (-|(z1 : ℝ) - (z2 : ℝ)|)) 4
        ([0, 1] : List ℚ) 0 none
        = .ok (directEval (fun _ z1 z2 => Real.exp (-|(z1 : ℝ) - (z2 : ℝ)|)) 4 [0, 1]) := rfl
    have h2 := h1.symm.trans hT
    injection h2 with h3
    subst h3
    unfold directEval
    rw [getD_range_map _ [] hl]
    refine ⟨?_, ?_, ?_⟩ <;> simp [List.getD]

/-- C5 witness: the scenario instantiated at l = 0, the zromb = 0 call
evaluating by rfl to the direct-evaluation tensor. -/
theorem C5_clarray_zromb_zero_witness :
    (0 < 5) ∧
    (((directEval (fun _ z1 z2 => Real.exp (-|(z1 : ℝ) - (z2 : ℝ)|)) 4
        [0, 1]).getD 0 []).getD 0 []).getD 1 0 = Real.exp (-1) :=
  ⟨by norm_num, (C5_clarray_zromb_zero.2 0 (by norm_num) _ rfl).1⟩

/-- C10: whenever zromb > 0 and lmax < 5, clarray fails (the multipole
range is split into lmax // 5 sections, a zero-section split) instead of
returning a covariance tensor. -/
theorem C10_clarray_small_lmax_fails (β : Type) [Field β]
    (aps : ℕ → ℚ → ℚ → β) (lmax : ℕ) (zarray : List ℚ) (zromb : ℕ)
    (zwidth : Option ℚ) (h1 : 0 < zromb) (h2 : lmax < 5) :
    isErr (clarray aps lmax zarray zromb zwidth) = true := by
  unfold clarray
  rw [if_neg (by omega : ¬ zromb = 0)]
  cases h : zhalfE zarray zwidth with
  | error e => rfl
  | ok zh =>
    have h5 : lmax / 5 = 0 := Nat.div_eq_of_lt h2
    simp [h5, isErr]

/-- C10 witness: a concrete failing call with zromb = 3 and lmax = 4. -/
theorem C10_clarray_small_lmax_fails_witness :
    (0 < 3) ∧ (4 < 5) ∧ isErr (clarray apsQZero 4 [0, 1] 3 none) = true :=
  ⟨by norm_num, by norm_num,
    C10_clarray_small_lmax_fails ℚ apsQZero 4 [0, 1] 3 none (by norm_num) (by norm_num)⟩

/-- C8 counterexample: a zarray of two equal values has fewer than 2
distinct values, yet with zromb > 0 and zwidth unset the call does not
raise: the inferred bin width is 0 and the division-contaminated tensor is
returned. -/
theorem C8_clarray_equal_values_ok :
    isErr (clarray apsQZero 5 [1, 1] 1 none) = false := by decide

/-- C8 amended: with zromb > 0 and zwidth unset, clarray raises exactly
when zarray has fewer than 2 entries (the access to the second sorted
value is out of bounds); a longer all-equal zarray is accepted. -/
theorem C8_clarray_short_zarray_raises (β : Type) [Field β]
    (aps : ℕ → ℚ → ℚ → β) (lmax : ℕ) (zarray : List ℚ) (zromb : ℕ)
    (h1 : 0 < zromb) (h2 : zarray.length < 2) :
    isErr (clarray aps lmax zarray zromb none) = true := by
  unfold clarray
  rw [if_neg (by omega : ¬ zromb = 0)]
  have hlen : ¬ 2 ≤ (List.insertionSort (fun a b => a ≤ b) zarray).length := by
    rw [List.length_insertionSort]; omega
  have hz : zhalfE zarray none = .error "index 1 is out of bounds for axis 0" := by
    simp [zhalfE, hlen]
    omega
  rw [hz]
  rfl

/-- C8 witness: a concrete length-1 zarray raises with zromb = 2. -/
theorem C8_clarray_short_zarray_raises_witness :
    (0 < 2) ∧ (([(5 : ℚ)] : List ℚ).length < 2) ∧
    isErr (clarray apsQZero 7 [5] 2 none) = true :=
  ⟨by norm_num, by norm_num,
    C8_clarray_short_zarray_raises ℚ apsQZero 7 [5] 2 (by norm_num) (by norm_num)⟩

/-- An in-range default read is a member of the list. -/
theorem getD_mem {α : Type} {l : List α} {i : ℕ} (d : α) (h : i < l.length) :
    l.getD i d ∈ l := by
  rw [List.getD_eq_getElem?_getD, List.getElem?_eq_getElem h]
  exact List.getElem_mem h

/-- A square matrix with a positive size has that many columns. -/
theorem colsOf_square {n : ℕ} {M : Mat} (h : matIsSquare n M) (h0 : 0 < n) :
    colsOf M = n := by
  obtain ⟨hl, hr⟩ := h
  have hlen : 0 < M.length := by omega
  exact hr _ (getD_mem [] hlen)

/-- Entry of the scaled identity at an in-range position. -/
theorem matGet_scale_identity (c : ℚ) {n i j : ℕ} (hi : i < n) (hj : j < n) :
    matGet (matScale c (npIdentity n)) i j = if i = j then c else 0 := by
  unfold matGet matScale npIdentity
  rw [getD_map_of_lt (List.map fun x => c * x) _ [] []
    (by simpa using hi)]
  rw [getD_range_map _ [] hi]
  rw [List.map_map]
  rw [getD_range_map _ 0 hj]
  by_cases hij : i = j <;> simp [hij]

/-- Adding the scaled identity to a square matrix of the same size reduces
numpy broadcasting to plain entrywise addition over the square grid. -/
theorem npBroadcastAdd_square (c : ℚ) {n : ℕ} {M : Mat}
    (h : matIsSquare n M) (h0 : 0 < n) :
    npBroadcastAdd M (matScale c (npIdentity n))
      = .ok ((List.range n).map fun i => (List.range n).map fun j =>
          matGet M i j + (if i = j then c else 0)) := by
  have hr : rowsOf M = n := h.1
  have hc : colsOf M = n := colsOf_square h h0
  have hrB : rowsOf (matScale c (npIdentity n)) = n := by
    simp [rowsOf, matScale, npIdentity]
  have hcB : colsOf (matScale c (npIdentity n)) = n := by
    unfold colsOf matScale npIdentity
    rw [getD_map_of_lt (List.map fun x => c * x) _ [] [] (by simpa using h0)]
    rw [getD_range_map _ [] h0]
    simp
  unfold npBroadcastAdd
  rw [hr, hc, hrB, hcB]
  rw [if_pos (by simp)]
  simp only [Nat.max_self]
  congr 1
  apply List.map_congr_left
  intro i hi
  apply List.map_congr_left
  intro j hj
  rw [List.mem_range] at hi hj
  have e1 : (if n = 1 then 0 else i) = i := by
    by_cases h1 : n = 1
    · simp [h1]; omega
    · simp [h1]
  have e2 : (if n = 1 then 0 else j) = j := by
    by_cases h1 : n = 1
    · simp [h1]; omega
    · simp [h1]
  rw [e1, e2, matGet_scale_identity c hi hj]

/-- The diagonal maximum of a positively-sized square matrix is defined
(the numpy reduction does not raise) and is the value diagMaxD. -/
theorem npMax_diagonal_square {n : ℕ} {M : Mat} (h : matIsSquare n M)
    (h0 : 0 < n) : npMax (npDiagonal M) = .ok (diagMaxD M) := by
  have hlen : (npDiagonal M).length = n := by
    unfold npDiagonal
    simp [rowsOf, colsOf_square h h0, h.1]
  cases hd : npDiagonal M with
  | nil => rw [hd] at hlen; simp at hlen; omega
  | cons x xs => simp [npMax, diagMaxD, hd]

/-- C1: for every factorizer, multipole and square covariance matrix, the
matrix handed to the factorization inside the mkfullsky loop equals C[l]
plus the diagonal regularizer 1e-14 times the maximum of C[l]'s diagonal,
the factorization is invoked with truncate = false (and the sign
convention requested), and — for any factorizer whose non-truncating mode
preserves the row count, as the spec requires — the transform's row count
equals numz. -/
theorem C1_mkfullsky_regularizer (root : Mat → Bool → Bool → Mat)
    (numz l : ℕ) (M : Mat) (gauss : CMat)
    (hsq : matIsSquare numz M) (h0 : 0 < numz) :
    mkfullskyStep root numz l M gauss
        = npAssign numz (l + 1)
            (npDotC (root (specRegularized numz M) false true) gauss) ∧
    ((∀ A : Mat, (root A false true).length = A.length) →
      (root (specRegularized numz M) false true).length = numz) := by
  have hb := npBroadcastAdd_square (diagMaxD M * jitter) hsq h0
  have hspec : ((List.range numz).map fun i => (List.range numz).map fun j =>
      matGet M i j + (if i = j then diagMaxD M * jitter else 0))
        = specRegularized numz M := by
    unfold specRegularized
    apply List.map_congr_left
    intro i _
    apply List.map_congr_left
    intro j _
    rw [mul_comm (jitter) (diagMaxD M)]
  constructor
  · simp only [mkfullskyStep, npMax_diagonal_square hsq h0, hb, hspec]
  · intro hroot
    rw [hroot]
    simp [specRegularized]

/-- C1 witness: the concrete 1-by-1 matrix [[2]] with the shape-preserving
factorizer stand-in. -/
theorem C1_mkfullsky_regularizer_witness :
    matIsSquare 1 [[2]] ∧ (0 < 1) ∧
    mkfullskyStep rootId 1 0 [[2]] [[⟨1, 0⟩]]
        = npAssign 1 1 (npDotC (rootId (specRegularized 1 [[2]]) false true)
            [[⟨1, 0⟩]]) ∧
    (rootId (specRegularized 1 [[2]]) false true).length = 1 :=
  ⟨by constructor <;> simp [matIsSquare], by norm_num,
    (C1_mkfullsky_regularizer rootId 1 0 [[2]] [[⟨1, 0⟩]]
      (by constructor <;> simp [matIsSquare]) (by norm_num)).1,
    (C1_mkfullsky_regularizer rootId 1 0 [[2]] [[⟨1, 0⟩]]
      (by constructor <;> simp [matIsSquare]) (by norm_num)).2 (fun _ => rfl)⟩

/-- C3: the monopole coefficient of the mkconstrained output is exactly
zero at every coordinate slice, whatever the covariance tensor, the
constraint set and the analyzed constraint coefficients: row i of the cv
array is the all-zero slice vector whenever larr[i] = 0. -/
theorem C3_mkconstrained_monopole_zero {Pix : Type} (eigh : Mat → Mat)
    (solveLin : Mat → List Cplx → List Cplx) (map2alm : Pix → List Cplx)
    (corr : Tensor) (constraints : List (ℕ × Pix)) (larr : List ℕ)
    (numz : ℕ) {i z : ℕ} (hi : i < larr.length) (hl : larr.getD i 1 = 0)
    (hz : z < numz) :
    cvEntry eigh solveLin map2alm corr constraints larr numz z i = zeroC := by
  simp only [cvEntry, cvMk]
  rw [getD_map_of_lt _ _ [] ((0, 1) : ℕ × ℕ) (by simpa [List.enum_length] using hi)]
  rw [getD_enum larr ((0, 1) : ℕ × ℕ) 1 hi]
  rw [List.getD_eq_getElem?_getD] at hl
  simp [hl, List.getElem?_replicate, hz]

/-- C2: for every multipole l > 0 read off the coefficient index array,
trans[l] is the transpose of the eigenvectors associated with the nmodes
largest eigenvalues (last nmodes columns under the ascending convention),
tmat[l] is trans[l] restricted to the constrained coordinate columns, the
amplitudes returned by the exact solver satisfy
tmat[l]^T . amplitude = constraint coefficients, and the cv entry at every
coordinate slice equals trans[l]^T . amplitude. -/
theorem C2_mkconstrained_projection {Pix : Type} (eigh : Mat → Mat)
    (solveLin : Mat → List Cplx → List Cplx) (map2alm : Pix → List Cplx)
    (corr : Tensor) (constraints : List (ℕ × Pix)) (larr : List ℕ)
    (numz : ℕ) {i l : ℕ}
    (hi : i < larr.length) (hil : larr.getD i 1 = l) (hl : 0 < l)
    (hev_len : (eigh (corr.getD l [])).length = numz)
    (hev_rect : ∀ row ∈ eigh (corr.getD l []), row.length = numz)
    (hnm : constraints.length ≤ numz) (h0 : 0 < numz)
    (hsolve : matVecC (matTranspose (tmatMk eigh constraints.length
          (constraints.map Prod.fst) corr l))
        (solveLin (matTranspose (tmatMk eigh constraints.length
            (constraints.map Prod.fst) corr l))
          (cmapMk map2alm constraints i))
      = cmapMk map2alm constraints i) :
    transMk eigh constraints.length corr l
        = transSpecMk eigh constraints.length numz corr l ∧
    tmatMk eigh constraints.length (constraints.map Prod.fst) corr l
        = colsAt (constraints.map Prod.fst)
            (transMk eigh constraints.length corr l) ∧
    matVecC (matTranspose (tmatMk eigh constraints.length
          (constraints.map Prod.fst) corr l))
        (solveLin (matTranspose (tmatMk eigh constraints.length
            (constraints.map Prod.fst) corr l))
          (cmapMk map2alm constraints i))
      = cmapMk map2alm constraints i ∧
    ∀ z : ℕ,
      cvEntry eigh solveLin map2alm corr constraints larr numz z i
        = (matVecC (matTranspose (transMk eigh constraints.length corr l))
            (solveLin (matTranspose (tmatMk eigh constraints.length
                (constraints.map Prod.fst) corr l))
              (cmapMk map2alm constraints i))).getD z zeroC := by
  have hV0 : 0 < (eigh (corr.getD l [])).length := by omega
  refine ⟨?_, rfl, hsolve, ?_⟩
  · unfold transMk transSpecMk matTranspose matColumn
    have hrow0 : (eigh (corr.getD l [])).getD 0 [] ∈ eigh (corr.getD l []) :=
      getD_mem [] hV0
    have hcols : colsOf ((eigh (corr.getD l [])).map fun row =>
        row.drop (row.length - constraints.length)) = constraints.length := by
      unfold colsOf
      rw [getD_map_of_lt _ _ [] [] hV0]
      rw [List.length_drop]
      rw [hev_rect _ hrow0]
      omega
    rw [hcols]
    apply List.map_congr_left
    intro j hj
    rw [List.map_map]
    apply List.map_congr_left
    intro row hrow
    simp only [Function.comp]
    rw [getD_drop]
    rw [hev_rect row hrow]
  · intro z
    simp only [cvEntry, cvMk]
    rw [getD_map_of_lt _ _ [] ((0, 1) : ℕ × ℕ) (by simpa [List.enum_length] using hi)]
    rw [getD_enum larr ((0, 1) : ℕ × ℕ) 1 hi]
    rw [hil]
    have hnz : ¬ (l = 0) := by omega
    simp [hnz]

/-- C2 witness: the concrete single-constraint instance with one
coordinate slice, where the stand-in eigendecomposition and solver realize
the external contracts exactly. -/
theorem C2_mkconstrained_projection_witness :
    (1 < 3) ∧
    transMk eighOne 1 [[[1]], [[1]]] 1 = transSpecMk eighOne 1 1 [[[1]], [[1]]] 1 ∧
    cvEntry eighOne solveOne m2aConst [[[1]], [[1]]] [(0, ())] [0, 1, 1] 1 0 1
      = (matVecC (matTranspose (transMk eighOne 1 [[[1]], [[1]]] 1))
          (solveOne (matTranspose (tmatMk eighOne 1 [0] [[[1]], [[1]]] 1))
            (cmapMk m2aConst [(0, ())] 1))).getD 0 zeroC := by
  have h := @C2_mkconstrained_projection Unit eighOne solveOne m2aConst
    [[[1]], [[1]]] [(0, ())] [0, 1, 1] 1 1 1 (by norm_num) rfl
    (by norm_num) (by decide) (by decide) (by decide) (by norm_num)
    (by
      simp [matVecC, matTranspose, tmatMk, transMk, colsAt, colsOf, cmapMk,
        m2aConst, eighOne, solveOne, dotRC, smulC, addC, zeroC, matGet,
        List.getD, List.range_succ])
  exact ⟨by norm_num, h.1, h.2.2.2 0⟩

/-- C3 witness: a concrete monopole entry of the cv array. -/
theorem C3_mkconstrained_monopole_zero_witness :
    ((0 : ℕ) < 3) ∧ ([0, 1, 1].getD 0 1 = 0) ∧ ((0 : ℕ) < 1) ∧
    cvEntry eighOne solveOne m2aConst [[[1]], [[1]]] [(0, ())] [0, 1, 1] 1 0 0
      = zeroC :=
  ⟨by norm_num, by norm_num, by norm_num,
    C3_mkconstrained_monopole_zero eighOne solveOne m2aConst [[[1]], [[1]]]
      [(0, ())] [0, 1, 1] 1 (by norm_num) (by norm_num) (by norm_num)⟩

/-- A successful coefficient-stage run has one output per input tensor,
each the per-multipole column of the shared table. -/
theorem mkfullskyAlms_ok_shape {root : Mat → Bool → Bool → Mat}
    {draw : ℕ → CMat} {gvl : Option (List CMat)} {corr : List Tensor}
    {almList : List (List CMat)}
    (h : mkfullskyAlms root draw gvl corr = .ok almList) :
    almList.length = corr.length ∧
    ∃ table, mapME (fun l => mapME (fun C =>
        mkfullskyStep root (corrNumz corr) l (C.getD l [])
          (gaussAt draw gvl l)) corr) (List.range (corrMaxl corr + 1))
        = .ok table ∧
      almList = (List.range corr.length).map fun ii =>
        table.map fun row => row.getD ii [] := by
  unfold mkfullskyAlms at h
  by_cases he : corr = []
  · rw [if_pos he] at h
    exact absurd h (by simp)
  · rw [if_neg he] at h
    by_cases hs : corrShape2 corr ≠ corrNumz corr
    · rw [if_pos hs] at h
      exact absurd h (by simp)
    · rw [if_neg hs] at h
      cases htab : mapME (fun l => mapME (fun C =>
          mkfullskyStep root (corrNumz corr) l (C.getD l [])
            (gaussAt draw gvl l)) corr) (List.range (corrMaxl corr + 1)) with
      | error e =>
        rw [htab] at h
        exact absurd h (by simp)
      | ok table =>
        rw [htab] at h
        simp only [Except.ok.injEq] at h
        subst h
        exact ⟨by simp, table, rfl, rfl⟩

/-- A list-input run whose coefficient stage succeeds reduces to the
bare-or-list wrapping of the per-tensor results. -/
theorem mkfullsky_ok_of_alms {Pix : Type} {root : Mat → Bool → Bool → Mat}
    {draw : ℕ → CMat} {gvl : Option (List CMat)} {sph : List CMat → Pix}
    {alms : Bool} {ts : List Tensor} {almList : List (List CMat)}
    (halm : mkfullskyAlms root draw gvl ts = .ok almList) :
    mkfullsky root draw gvl sph alms (.inr ts)
      = (if ts.length = 1
         then .ok (.inl ((if alms then almList.map Sum.inl
            else almList.map fun a => Sum.inr (sph a)).getD 0 (.inl [])))
         else .ok (.inr (if alms then almList.map Sum.inl
            else almList.map fun a => Sum.inr (sph a)))) := by
  simp only [mkfullsky]
  rw [halm]

/-- A list-input run whose coefficient stage fails propagates the error. -/
theorem mkfullsky_error_of_alms {Pix : Type} {root : Mat → Bool → Bool → Mat}
    {draw : ℕ → CMat} {gvl : Option (List CMat)} {sph : List CMat → Pix}
    {alms : Bool} {ts : List Tensor} {e : String}
    (halm : mkfullskyAlms root draw gvl ts = .error e) :
    mkfullsky root draw gvl sph alms (.inr ts) = .error e := by
  simp only [mkfullsky]
  rw [halm]

/-- A bare-tensor input runs exactly like the singleton list input. -/
theorem mkfullsky_single_eq {Pix : Type} (root : Mat → Bool → Bool → Mat)
    (draw : ℕ → CMat) (gvl : Option (List CMat)) (sph : List CMat → Pix)
    (alms : Bool) (t : Tensor) :
    mkfullsky root draw gvl sph alms (.inl t)
      = mkfullsky root draw gvl sph alms (.inr [t]) := rfl

/-- C4: with no precomputed noise list, the white-noise draw at each
multipole is shared by every tensor of the list, so equal tensors in the
list produce identical outputs (harmonic coefficients or maps). -/
theorem C4_mkfullsky_shared_draw {Pix : Type} (root : Mat → Bool → Bool → Mat)
    (draw : ℕ → CMat) (sph : List CMat → Pix) (alms : Bool)
    (ts : List Tensor) {i j : ℕ} (hi : i < ts.length) (hj : j < ts.length)
    (hij : ts.getD i [] = ts.getD j []) :
    listOutAt i (mkfullsky root draw none sph alms (.inr ts))
      = listOutAt j (mkfullsky root draw none sph alms (.inr ts)) := by
  cases halm : mkfullskyAlms root draw none ts with
  | error e => rw [mkfullsky_error_of_alms halm]; rfl
  | ok almList =>
    rw [mkfullsky_ok_of_alms halm]
    by_cases h1 : ts.length = 1
    · have hi0 : i = 0 := by omega
      have hj0 : j = 0 := by omega
      rw [hi0, hj0]
    · rw [if_neg h1]
      obtain ⟨hlen, table, htab, hform⟩ := mkfullskyAlms_ok_shape halm
      have hkey : almList.getD i [] = almList.getD j [] := by
        subst hform
        rw [getD_range_map _ [] hi, getD_range_map _ [] hj]
        apply List.map_congr_left
        intro row hrow
        obtain ⟨l, _, hrowok⟩ := mapME_ok_mem htab row hrow
        have hgi := mapME_ok_getD hrowok hi ([] : Tensor) ([] : CMat)
        have hgj := mapME_ok_getD hrowok hj ([] : Tensor) ([] : CMat)
        rw [hij] at hgi
        have h2 := hgi.symm.trans hgj
        injection h2
      have hli : i < almList.length := by omega
      have hlj : j < almList.length := by omega
      by_cases ha : alms
      · simp only [listOutAt, ha, if_true]
        rw [getD_map_of_lt Sum.inl _ _ [] hli, getD_map_of_lt Sum.inl _ _ [] hlj,
          hkey]
      · simp only [listOutAt, ha, Bool.false_eq_true, if_false]
        rw [getD_map_of_lt _ _ _ [] hli, getD_map_of_lt _ _ _ [] hlj, hkey]

/-- C4 witness: two equal tensors sharing the per-multipole draw give
identical outputs in a concrete run. -/
theorem C4_mkfullsky_shared_draw_witness :
    (0 < 2) ∧ (1 < 2) ∧
    ([tensOne, tensOne].getD 0 [] = [tensOne, tensOne].getD 1 []) ∧
    listOutAt 0 (mkfullsky rootId drawOne none sphUnit true
        (.inr [tensOne, tensOne]))
      = listOutAt 1 (mkfullsky rootId drawOne none sphUnit true
        (.inr [tensOne, tensOne])) :=
  ⟨by norm_num, by norm_num, rfl,
    C4_mkfullsky_shared_draw rootId drawOne sphUnit true [tensOne, tensOne]
      (by norm_num) (by norm_num) rfl⟩

/-- C6: evaluated with a factorizer stand-in that records the
sign-convention flag in its output shape, the mkfullsky_der1 loop runs the
factorization with the deterministic sign convention off (the call
collides with the shape probe) while the mkfullsky loop requests it (the
run succeeds) on the same shared-noise two-tensor input: the derivative
variant does not request the convention. -/
theorem C6_der1_sign_convention_eval :
    isErr (mkfullskyDer1Alms rootFlag drawOne (some [[[⟨1, 0⟩]]])
      [tensOne, tensOne]) = true ∧
    isErr (mkfullskyAlms rootFlag drawOne (some [[[⟨1, 0⟩]]])
      [tensOne, tensOne]) = false := by
  constructor <;> decide

/-- C7 counterexample: a list whose second tensor has coordinate axes 1
while the declared coordinate count is 2 is mutually inconsistent and its
second covariance axis does not match the declared count, yet mkfullsky
does not fail: the mismatched matrix is broadcast through and output is
produced. -/
theorem C7_mkfullsky_inconsistent_ok :
    isErr (mkfullskyAlms rootId drawTwo none [tensTwo, tensOne]) = false := by
  decide

/-- C7 amended: mkfullsky validates only the first supplied tensor,
failing immediately exactly when that tensor's third axis differs from its
second; mis-shapes of the other tensors are not checked up front. -/
theorem C7_mkfullsky_first_tensor_check (root : Mat → Bool → Bool → Mat)
    (draw : ℕ → CMat) (gvl : Option (List CMat)) (ts : List Tensor)
    (hne : ts ≠ []) (hsh : corrShape2 ts ≠ corrNumz ts) :
    mkfullskyAlms root draw gvl ts
      = .error "Correlation matrix is incorrect shape." := by
  unfold mkfullskyAlms
  rw [if_neg hne, if_pos hsh]

/-- C7 witness: a concrete first tensor with mismatched axes fails
immediately. -/
theorem C7_mkfullsky_first_tensor_check_witness :
    ([tensBad] ≠ ([] : List Tensor)) ∧
    (corrShape2 [tensBad] ≠ corrNumz [tensBad]) ∧
    mkfullskyAlms rootId drawTwo none [tensBad]
      = .error "Correlation matrix is incorrect shape." :=
  ⟨by decide, by decide,
    C7_mkfullsky_first_tensor_check rootId drawTwo none [tensBad]
      (by decide) (by decide)⟩

/-- C9 counterexample: a singleton list input yields a bare (non-list)
result, not a one-element list aligned with the input. -/
theorem C9_mkfullsky_singleton_list_bare :
    outShape (mkfullsky rootId drawOne none sphUnit true (.inr [tensOne]))
      = some none := by decide

/-- C9 amended: a successful run returns a bare result both for a single
tensor and for a singleton list, and a list of the input's length exactly
when the input list has at least two tensors. -/
theorem C9_mkfullsky_return_shape {Pix : Type} (root : Mat → Bool → Bool → Mat)
    (draw : ℕ → CMat) (gvl : Option (List CMat)) (sph : List CMat → Pix)
    (alms : Bool) :
    (∀ t : Tensor, isErr (mkfullsky root draw gvl sph alms (.inl t)) = false →
      outShape (mkfullsky root draw gvl sph alms (.inl t)) = some none) ∧
    (∀ t : Tensor, isErr (mkfullsky root draw gvl sph alms (.inr [t])) = false →
      outShape (mkfullsky root draw gvl sph alms (.inr [t])) = some none) ∧
    (∀ ts : List Tensor, 2 ≤ ts.length →
      isErr (mkfullsky root draw gvl sph alms (.inr ts)) = false →
      outShape (mkfullsky root draw gvl sph alms (.inr ts))
        = some (some ts.length)) := by
  have hsingle : ∀ t : Tensor,
      isErr (mkfullsky root draw gvl sph alms (.inr [t])) = false →
      outShape (mkfullsky root draw gvl sph alms (.inr [t])) = some none := by
    intro t hok
    cases halm : mkfullskyAlms root draw gvl [t] with
    | error e => rw [mkfullsky_error_of_alms halm] at hok; exact absurd hok (by simp [isErr])
    | ok almList =>
      rw [mkfullsky_ok_of_alms halm]
      rw [if_pos (by simp)]
      rfl
  refine ⟨?_, hsingle, ?_⟩
  · intro t hok
    rw [mkfullsky_single_eq] at hok ⊢
    exact hsingle t hok
  · intro ts hts hok
    cases halm : mkfullskyAlms root draw gvl ts with
    | error e => rw [mkfullsky_error_of_alms halm] at hok; exact absurd hok (by simp [isErr])
    | ok almList =>
      have hlen := (mkfullskyAlms_ok_shape halm).1
      rw [mkfullsky_ok_of_alms halm]
      rw [if_neg (by omega)]
      by_cases ha : alms <;> simp [ha, outShape, hlen]

/-- C9 witness: a concrete two-tensor list input returning a list of
length 2. -/
theorem C9_mkfullsky_return_shape_witness :
    (2 ≤ ([tensOne, tensOne] : List Tensor).length) ∧
    isErr (mkfullsky rootId drawOne none sphUnit true
      (.inr [tensOne, tensOne])) = false ∧
    outShape (mkfullsky rootId drawOne none sphUnit true
      (.inr [tensOne, tensOne])) = some (some 2) :=
  ⟨by norm_num, by decide,
    (C9_mkfullsky_return_shape rootId drawOne none sphUnit true).2.2
      [tensOne, tensOne] (by norm_num) (by decide)⟩

end Skysim
